import Mathlib

/-
Verification of the lapce editing core (`lapce-core/src/editor.rs`).

The text store, selection, cursor, pair-table and word-classifier
collaborators live outside the provided source tree; they are modelled from
the specification's collaborator contracts over a `List Char` text with
character offsets (one character = one grapheme in the model).  The editor
orchestration functions (`Editor.insert`, `Editor.doPaste`, `Editor.doEdit`)
are translated directly from `editor.rs`.
-/

namespace Lapce

/-- Text is a list of characters; offsets count characters. -/
abbrev Text := List Char

/-- Classification attached to every edit batch (from `editor.rs`, `EditType`). -/
inductive EditType where
  | Other
  | InsertChars
  | InsertNewline
  | Delete
  | Undo
  | Redo
deriving DecidableEq, Repr

/-- From `editor.rs`: `EditType::breaks_undo_group`:
`self == EditType::Other || self != previous`. -/
def EditType.breaksUndoGroup (self previous : EditType) : Bool :=
  self == EditType.Other || self != previous

/-- Modelled from the spec (selection.rs is not under src/): a Region
`(start, end, optional horizontal hint)`; `stop` stands for the source's
`end` field (a Lean keyword). -/
structure SelRegion where
  start : Nat
  stop : Nat
  horiz : Option Nat
deriving DecidableEq, Repr

def SelRegion.caret (o : Nat) : SelRegion := ⟨o, o, none⟩

def SelRegion.min (r : SelRegion) : Nat := Min.min r.start r.stop

def SelRegion.max (r : SelRegion) : Nat := Max.max r.start r.stop

def SelRegion.isCaret (r : SelRegion) : Bool := r.start == r.stop

/-- Modelled from the spec: a Selection is an ordered sequence of regions
that tracks which region was most recently inserted (`lastInserted` is the
index used by `last_inserted()`). -/
structure Selection where
  regions : List SelRegion
  lastInserted : Nat
deriving DecidableEq, Repr

def Selection.caret (o : Nat) : Selection := ⟨[SelRegion.caret o], 0⟩

def Selection.region (s e : Nat) : Selection := ⟨[⟨s, e, none⟩], 0⟩

def Selection.lastInsertedRegion (sel : Selection) : Option SelRegion :=
  sel.regions[sel.lastInserted]?

/-- Minimum of the regions' `min` offsets (0 for the empty selection, which
the spec's invariant rules out during editing operations). -/
def Selection.minOffset (sel : Selection) : Nat :=
  match sel.regions with
  | [] => 0
  | r :: rest => rest.foldl (fun a q => min a q.min) r.min

/-- One element of a delta: the interval `[start, stop)` of the original
text is replaced by `repl`. -/
structure EditElem where
  start : Nat
  stop : Nat
  repl : Text
deriving DecidableEq, Repr

/-- Modelled from the spec: a delta is the ordered list of replaced
intervals, sufficient to remap any prior offset. -/
abbrev Delta := List EditElem

def joinAll {α : Type} : List (List α) → List α
  | [] => []
  | xs :: rest => xs ++ joinAll rest

def insertByStart (e : EditElem) : List EditElem → List EditElem
  | [] => [e]
  | f :: rest => if e.start < f.start then e :: f :: rest else f :: insertByStart e rest

/-- Sort delta elements ascending by start (stable: a later element with an
equal start goes after an earlier one). -/
def sortByStart : List EditElem → List EditElem
  | [] => []
  | e :: rest => insertByStart e (sortByStart rest)

def applyOne (t : Text) (e : EditElem) : Text :=
  t.take e.start ++ e.repl ++ t.drop e.stop

/-- Apply an ascending list of delta elements simultaneously: elements with
larger offsets are applied first, so every interval refers to the original
text. -/
def applyElems (t : Text) : List EditElem → Text
  | [] => t
  | e :: rest => applyOne (applyElems t rest) e

/-- Remap one offset through a delta (modelled from the spec's drift
contract: with `after = true` a boundary exactly at an insertion point lands
after the inserted text, with `after = false` it stays before it). -/
def transformAux (o : Nat) (after : Bool) : List EditElem → Int → Nat
  | [], acc => ((o : Int) + acc).toNat
  | e :: rest, acc =>
    if o < e.start then ((o : Int) + acc).toNat
    else if o = e.start then
      (if after then ((o : Int) + acc + e.repl.length).toNat else ((o : Int) + acc).toNat)
    else if o ≤ e.stop then ((e.start : Int) + acc + e.repl.length).toNat
    else transformAux o after rest (acc + (e.repl.length : Int) - ((e.stop : Int) - (e.start : Int)))

def Delta.transform (d : Delta) (o : Nat) (after : Bool) : Nat :=
  transformAux o after d 0

/-- Modelled from the spec: remap every region through the delta with the
given drift flag (`InsertDrift::Default`), clearing horizontal hints. -/
def Selection.applyDelta (sel : Selection) (d : Delta) (after : Bool) : Selection :=
  ⟨sel.regions.map (fun r => ⟨d.transform r.start after, d.transform r.stop after, none⟩),
   sel.lastInserted⟩

/-- Modelled from the spec: the text store; `log` records every edit batch
applied, with its classification. -/
structure Buffer where
  text : Text
  log : List (Delta × EditType)
deriving DecidableEq, Repr

/-- Modelled from the spec: atomic multi-region edit application.  Every
region of every target selection is replaced by the pair's text; the batch
is applied simultaneously and returned as the delta. -/
def Buffer.edit (b : Buffer) (edits : List (Selection × Text)) (ty : EditType) :
    Buffer × Delta :=
  let elems := joinAll (edits.map (fun pr => pr.1.regions.map (fun r => EditElem.mk r.min r.max pr.2)))
  let sorted := sortByStart elems
  (⟨applyElems b.text sorted, b.log ++ [(sorted, ty)]⟩, sorted)

/-- Number of line breaks strictly before offset `o`: the line of `o`. -/
def lineOfOffset (t : Text) (o : Nat) : Nat :=
  (t.take o).count '\n'

/-- Offset of the first character of line `l` (clamped to the text length
when `l` exceeds the available lines, as the text-store collaborator does). -/
def offsetOfLine : Text → Nat → Nat
  | _, 0 => 0
  | [], _ + 1 => 0
  | ch :: rest, l + 1 =>
    if ch = '\n' then 1 + offsetOfLine rest l else 1 + offsetOfLine rest (l + 1)

def slice (t : Text) (s e : Nat) : Text := (t.drop s).take (e - s)

/-- Content of line `l`, line break included. -/
def lineContent (t : Text) (l : Nat) : Text :=
  slice t (offsetOfLine t l) (offsetOfLine t (l + 1))

def firstNonBlankAux : Text → Nat → Nat
  | [], i => i
  | c :: rest, i => if c = ' ' ∨ c = '\t' then firstNonBlankAux rest (i + 1) else i

/-- Offset of the first character of line `l` that is not a space or tab
(the position of the line break, or of the text end, if the line is blank). -/
def firstNonBlankCharacterOnLine (t : Text) (l : Nat) : Nat :=
  let s := offsetOfLine t l
  firstNonBlankAux (t.drop s) s

/-- Leading whitespace of line `l`. -/
def indentOnLine (t : Text) (l : Nat) : Text :=
  slice t (offsetOfLine t l) (firstNonBlankCharacterOnLine t l)

/-- Step one grapheme forward (a grapheme is one character in this model),
clamped at `limit`. -/
def nextGraphemeOffset (o count limit : Nat) : Nat := min (o + count) limit

/-- Step one grapheme back, not crossing `limit`. -/
def prevGraphemeOffset (o count limit : Nat) : Nat := max limit (o - count)

/-- Offset of the end of the line containing `o`; with `caret = true` the
position of the line break itself is allowed, otherwise the last character's
position is returned (modelled from the text-store contract
`line_end(offset, include_newline)`). -/
def lineEndOffset (t : Text) (l : Nat) (caret : Bool) : Nat :=
  let s := offsetOfLine t l
  let e := offsetOfLine t (l + 1)
  let content := slice t s e
  let e1 := if content.getLast? = some '\n' then e - 1 else e
  if caret then e1 else if content = [] then e1 else prevGraphemeOffset e1 1 s

def offsetLineEnd (t : Text) (o : Nat) (caret : Bool) : Nat :=
  lineEndOffset t (lineOfOffset t o) caret

theorem offsetOfLine_le_length (t : Text) : ∀ l, offsetOfLine t l ≤ t.length := by
  induction t with
  | nil => intro l; cases l <;> simp [offsetOfLine]
  | cons ch rest ih =>
    intro l
    cases l with
    | zero => simp [offsetOfLine]
    | succ n =>
      simp only [offsetOfLine, List.length_cons]
      split
      · have := ih n; omega
      · have := ih (n + 1); omega

/-- Modelled from the spec: opaque syntax collaborator. -/
inductive Syn where
  | mk
deriving DecidableEq, Repr

/-- Modelled from the spec: pair table `direction_of` (syntax.rs is not
under src/): `some true` for an opener, `some false` for a closer. -/
def matchingPairDirection (c : Char) : Option Bool :=
  if c = '{' ∨ c = '(' ∨ c = '[' then some true
  else if c = '}' ∨ c = ')' ∨ c = ']' then some false
  else none

/-- Modelled from the spec: pair table `counterpart_of`. -/
def matchingChar (c : Char) : Option Char :=
  if c = '{' then some '}'
  else if c = '}' then some '{'
  else if c = '(' then some ')'
  else if c = ')' then some '('
  else if c = '[' then some ']'
  else if c = ']' then some '[' else none

/-- Modelled from the spec: word-property classifier (word.rs is not under
src/). -/
inductive WordProperty where
  | Lf
  | Space
  | Punctuation
  | Other
deriving DecidableEq, Repr

def isPunctChar (c : Char) : Bool :=
  let n := c.toNat
  (33 ≤ n && n ≤ 47) || (58 ≤ n && n ≤ 64) || (91 ≤ n && n ≤ 96) || (123 ≤ n && n ≤ 126)

def getWordProperty (c : Char) : WordProperty :=
  if c = '\r' ∨ c = '\n' then WordProperty.Lf
  else if c.toNat ≤ 32 then WordProperty.Space
  else if isPunctChar c then WordProperty.Punctuation
  else WordProperty.Other

/-- Backward scan for an unmatched `openC` before position `i`, matching
nested `openC`/`closeC` pairs. -/
def scanUnmatched (t : Text) (openC closeC : Char) : Nat → Nat → Option Nat
  | 0, _ => none
  | i + 1, depth =>
    match t[i]? with
    | some ch =>
      if ch = openC then
        (if depth = 0 then some i else scanUnmatched t openC closeC i (depth - 1))
      else if ch = closeC then scanUnmatched t openC closeC i (depth + 1)
      else scanUnmatched t openC closeC i depth
    | none => scanUnmatched t openC closeC i depth

/-- Modelled from the spec: `search_unmatched_opener` (buffer.rs is not
under src/); per the error-handling contract an absent syntax collaborator
behaves like a failed search. -/
def previousUnmatched (t : Text) (syn : Option Syn) (c : Char) (offset : Nat) : Option Nat :=
  match syn with
  | none => none
  | some _ => scanUnmatched t c ((matchingChar c).getD c) offset 0

/-- Modelled from the spec: visual kinds (mode.rs is not under src/). -/
inductive VisualMode where
  | Normal
  | Linewise
  | Blockwise
deriving DecidableEq, Repr

/-- Modelled from the spec: the cursor's tagged state (cursor.rs is not
under src/). -/
inductive CursorMode where
  | Normal (offset : Nat)
  | Visual (start : Nat) (stop : Nat) (mode : VisualMode)
  | Insert (selection : Selection)
deriving DecidableEq, Repr

structure Cursor where
  mode : CursorMode
  horiz : Option Nat
deriving DecidableEq, Repr

def Cursor.isInsert (c : Cursor) : Bool :=
  match c.mode with
  | CursorMode.Insert _ => true
  | _ => false

def Cursor.isVisual (c : Cursor) : Bool :=
  match c.mode with
  | CursorMode.Visual _ _ _ => true
  | _ => false

/-- Modelled from the spec: the cursor's current primary offset. -/
def Cursor.offset (c : Cursor) : Nat :=
  match c.mode with
  | CursorMode.Normal o => o
  | CursorMode.Visual _ e _ => e
  | CursorMode.Insert sel => sel.minOffset

/-- Modelled from the spec: the current edit-selection — the text range an
editing operation replaces.  Insert uses its own selection; a Visual range
covers from its minimum through one grapheme past its maximum
(character/block-wise) or the containing full lines (line-wise). -/
def Cursor.editSelection (c : Cursor) (b : Buffer) : Selection :=
  match c.mode with
  | CursorMode.Insert sel => sel
  | CursorMode.Normal o => Selection.caret o
  | CursorMode.Visual s e vm =>
    let lo := Nat.min s e
    let hi := Nat.max s e
    match vm with
    | VisualMode.Linewise =>
      Selection.region (offsetOfLine b.text (lineOfOffset b.text lo))
        (offsetOfLine b.text (lineOfOffset b.text hi + 1))
    | _ => Selection.region lo (nextGraphemeOffset hi 1 b.text.length)

/-- Modelled from the spec: `Cursor::update_selection` (cursor.rs is not
under src/) — from Normal/Visual mode the cursor becomes Normal one grapheme
before the selection's minimum offset; from Insert mode it keeps the
selection. -/
def Cursor.updateSelection (c : Cursor) (_b : Buffer) (sel : Selection) : Cursor :=
  match c.mode with
  | CursorMode.Insert _ => { c with mode := CursorMode.Insert sel }
  | _ => { c with mode := CursorMode.Normal (prevGraphemeOffset sel.minOffset 1 0) }

/-- Modelled from the spec: the paste buffer (register.rs is not under
src/). -/
structure RegisterData where
  content : Text
  mode : VisualMode
deriving DecidableEq, Repr

/-- Modelled from the spec: the command set routed through `do_edit`. -/
inductive EditCommand where
  | MoveLineUp
  | NormalMode
  | InsertMode
  | ToggleVisualMode
  | ToggleLinewiseVisualMode
  | ToggleBlockwiseVisualMode
deriving DecidableEq, Repr

/-- Is auto-closing allowed after this caret?  From `editor.rs`: the
character at the caret is a line break, whitespace or punctuation, or the
caret is at the end of the text. -/
def safeForAutoClose (t : Text) (o : Nat) : Bool :=
  match t.get? o with
  | none => true
  | some ch =>
    let prop := getWordProperty ch
    prop == WordProperty.Lf || prop == WordProperty.Space || prop == WordProperty.Punctuation

/-- The body of the per-region loop of `Editor::insert` (editor.rs lines
60-122) for a single character `c`: returns the main edits and late edits
this region contributes, and the region's new value (only the skip case
mutates it). -/
def insertRegionStep (t : Text) (syn : Option Syn) (c : Char) (idx : Nat)
    (region : SelRegion) :
    List (Selection × Text) × List (Nat × Char) × SelRegion :=
  let offset := region.stop
  let cursorChar := t[offset]?
  if matchingPairDirection c = some false ∧ cursorChar = some c then
    -- Skip the closing character.
    ([], [], SelRegion.caret (nextGraphemeOffset offset 1 t.length))
  else
    let line := lineOfOffset t offset
    let lineStart := offsetOfLine t line
    let indentCase :=
      matchingPairDirection c = some false ∧
        (slice t lineStart offset).all (fun ch => ch.isWhitespace)
    match if indentCase then
        previousUnmatched t syn ((matchingChar c).getD c) offset else none with
    | some previousOffset =>
      -- Auto-indent the closing character to the opening's level.
      let previousLine := lineOfOffset t previousOffset
      let lineIndent := indentOnLine t previousLine
      ([(Selection.region lineStart offset, lineIndent ++ [c])], [], region)
    | none =>
      let lateEdits :=
        if matchingPairDirection c = some true ∧ safeForAutoClose t offset then
          [(idx, (matchingChar c).getD c)]
        else []
      ([(Selection.region region.start region.stop, [c])], lateEdits, region)

def insertRegionByStart (r : SelRegion) : List SelRegion → List SelRegion
  | [] => [r]
  | q :: rest => if r.start < q.start then r :: q :: rest else q :: insertRegionByStart r rest

def sortRegionsByStart : List SelRegion → List SelRegion
  | [] => []
  | r :: rest => insertRegionByStart r (sortRegionsByStart rest)

/-- The final adjustment pass of `Editor::insert` (editor.rs lines 156-179):
walk regions in ascending start order with a running adjustment; note that
the comparison against a late edit's insertion point uses the region's
already-adjusted start, exactly as the source does. -/
def adjustRegions (editsAfter : List (Selection × Text)) :
    List SelRegion → Nat → List SelRegion
  | [], _ => []
  | r :: rest, adjustment =>
    let r1 : SelRegion := ⟨r.start + adjustment, r.stop + adjustment, none⟩
    let adj1 :=
      match editsAfter.findSome? (fun pr =>
          if pr.1.lastInsertedRegion.map SelRegion.start = some r1.start then some pr.2
          else none) with
      | some inserted => adjustment + inserted.length
      | none => adjustment
    r1 :: adjustRegions editsAfter rest adj1

/-- Pair every element with its index, starting at `i` (Rust's
`enumerate`). -/
def enumIdx {α : Type} : Nat → List α → List (Nat × α)
  | _, [] => []
  | i, x :: rest => (i, x) :: enumIdx (i + 1) rest

/-- `Editor::insert` from editor.rs (lines 36-184). -/
def Editor.insert (cursor : Cursor) (buffer : Buffer) (s : Text) (syn : Option Syn) :
    Cursor × Buffer :=
  match cursor.mode with
  | CursorMode.Insert selection =>
    match s with
    | [c] =>
      let steps := (enumIdx 0 selection.regions).map
        (fun p => insertRegionStep buffer.text syn c p.1 p.2)
      let edits := joinAll (steps.map (fun st => st.1))
      let editsAfter := joinAll (steps.map (fun st => st.2.1))
      let newRegions := steps.map (fun st => st.2.2)
      let (buffer1, delta) := buffer.edit edits EditType.InsertChars
      let selection1 := Selection.applyDelta ⟨newRegions, selection.lastInserted⟩ delta true
      let editsAfterResolved : List (Selection × Text) :=
        editsAfter.map (fun pr =>
          let r := (selection1.regions[pr.1]?).getD (SelRegion.caret 0)
          (Selection.region r.start r.stop, [pr.2]))
      let (buffer2, _) := buffer1.edit editsAfterResolved EditType.InsertChars
      let adjusted := adjustRegions editsAfterResolved
        (sortRegionsByStart selection1.regions) 0
      ({ cursor with mode := CursorMode.Insert ⟨adjusted, selection1.lastInserted⟩ }, buffer2)
    | _ =>
      -- Not exactly one character: apply verbatim, no pairing logic.
      let (buffer1, delta) := buffer.edit [(selection, s)] EditType.InsertChars
      let selection1 := selection.applyDelta delta true
      ({ cursor with mode := CursorMode.Insert selection1 }, buffer1)
  | _ => (cursor, buffer)

/-- `Editor::toggle_visual` from editor.rs (lines 186-212). -/
def Editor.toggleVisual (cursor : Cursor) (visualMode : VisualMode) (modal : Bool) : Cursor :=
  if !modal then cursor
  else
    match cursor.mode with
    | CursorMode.Visual s e m =>
      if m ≠ visualMode then { cursor with mode := CursorMode.Visual s e visualMode }
      else { cursor with mode := CursorMode.Normal e }
    | _ =>
      let o := cursor.offset
      { cursor with mode := CursorMode.Visual o o visualMode }

/-- The target selection of a character-wise paste (editor.rs lines
222-231): from Normal mode a caret one past the cursor, clamped to the line
end; otherwise the current edit-selection. -/
def charPasteTarget (cursor : Cursor) (buffer : Buffer) : Selection :=
  match cursor.mode with
  | CursorMode.Normal offset =>
    let lineEnd := offsetLineEnd buffer.text offset true
    Selection.caret (min (offset + 1) lineEnd)
  | _ => cursor.editSelection buffer

/-- `Editor::do_paste` from editor.rs (lines 214-311). -/
def Editor.doPaste (cursor : Cursor) (buffer : Buffer) (data : RegisterData) :
    Cursor × Buffer × List Delta :=
  match data.mode with
  | VisualMode.Normal =>
    let selection := charPasteTarget cursor buffer
    let after := cursor.isInsert || !(data.content.contains '\n')
    let (buffer1, delta) := buffer.edit [(selection, data.content)] EditType.InsertChars
    let selection1 := selection.applyDelta delta after
    if !after then
      (cursor.updateSelection buffer1 selection1, buffer1, [delta])
    else
      match cursor.mode with
      | CursorMode.Insert _ =>
        ({ cursor with mode := CursorMode.Insert selection1 }, buffer1, [delta])
      | _ =>
        let offset := prevGraphemeOffset selection1.minOffset 1 0
        ({ cursor with mode := CursorMode.Normal offset }, buffer1, [delta])
  | _ =>
    -- Linewise or Blockwise paste buffer.
    let target : Selection × Text :=
      match cursor.mode with
      | CursorMode.Normal offset =>
        let line := lineOfOffset buffer.text offset
        (Selection.caret (offsetOfLine buffer.text (line + 1)), data.content)
      | CursorMode.Insert sel =>
        (⟨sel.regions.map (fun r =>
            if r.isCaret then
              let start := offsetOfLine buffer.text (lineOfOffset buffer.text r.start)
              ⟨start, start, r.horiz⟩
            else r), sel.lastInserted⟩, data.content)
      | CursorMode.Visual _ _ vm =>
        (cursor.editSelection buffer,
         if vm = VisualMode.Linewise then data.content else '\n' :: data.content)
    let (buffer1, delta) := buffer.edit [(target.1, target.2)] EditType.InsertChars
    let selection1 := target.1.applyDelta delta cursor.isInsert
    match cursor.mode with
    | CursorMode.Insert _ =>
      ({ cursor with mode := CursorMode.Insert selection1 }, buffer1, [delta])
    | _ =>
      let offset := selection1.minOffset
      let offset := if cursor.isVisual then offset + 1 else offset
      let line := lineOfOffset buffer1.text offset
      let offset := firstNonBlankCharacterOnLine buffer1.text line
      ({ cursor with mode := CursorMode.Normal offset }, buffer1, [delta])

/-- The body of the per-region loop of the `MoveLineUp` branch of
`Editor::do_edit` (editor.rs lines 325-352): if the region's line has a
predecessor, one edit swaps the region's full line span with the previous
line and the region's offsets are shifted up by the previous line's
length. -/
def moveLineUpStep (buffer : Buffer) (region : SelRegion) :
    Buffer × SelRegion × List Delta :=
  let startLine := lineOfOffset buffer.text region.min
  if startLine = 0 then (buffer, region, [])
  else
    let previousLineLen := (lineContent buffer.text (startLine - 1)).length
    let endLine := lineOfOffset buffer.text region.max
    let start := offsetOfLine buffer.text startLine
    let stop := offsetOfLine buffer.text (endLine + 1)
    let content := slice buffer.text start stop
    let (buffer1, delta) := buffer.edit
      [(Selection.region start stop, []),
       (Selection.caret (offsetOfLine buffer.text (startLine - 1)), content)]
      EditType.InsertChars
    (buffer1, ⟨region.start - previousLineLen, region.stop - previousLineLen, region.horiz⟩,
     [delta])

/-- Sequential processing of regions in stored order, each edit applied to
the text store immediately. -/
def moveLineUpLoop : Buffer → List SelRegion → List SelRegion × Buffer × List Delta
  | b, [] => ([], b, [])
  | b, r :: rest =>
    let step := moveLineUpStep b r
    let recur := moveLineUpLoop step.1 rest
    (step.2.1 :: recur.1, recur.2.1, step.2.2 ++ recur.2.2)

/-- `Editor::do_edit` from editor.rs (lines 313-415). -/
def Editor.doEdit (cursor : Cursor) (buffer : Buffer) (cmd : EditCommand)
    (_syn : Option Syn) (modal : Bool) : Cursor × Buffer × List Delta :=
  match cmd with
  | EditCommand.MoveLineUp =>
    match cursor.mode with
    | CursorMode.Insert selection =>
      let res := moveLineUpLoop buffer selection.regions
      ({ cursor with mode := CursorMode.Insert ⟨res.1, selection.lastInserted⟩ },
       res.2.1, res.2.2)
    | _ => (cursor, buffer, [])
  | EditCommand.NormalMode =>
    if !modal then
      match cursor.mode with
      | CursorMode.Insert selection =>
        if selection.regions.length > 1 then
          match selection.lastInsertedRegion with
          | some region =>
            ({ cursor with mode := CursorMode.Insert (Selection.region region.start region.stop) },
             buffer, [])
          | none => (cursor, buffer, [])
        else
          match selection.regions with
          | [region] =>
            if !region.isCaret then
              ({ cursor with mode := CursorMode.Insert (Selection.caret region.stop) },
               buffer, [])
            else (cursor, buffer, [])
          | _ => (cursor, buffer, [])
      | _ => (cursor, buffer, [])
    else
      let offset :=
        match cursor.mode with
        | CursorMode.Insert selection =>
          let o := selection.minOffset
          prevGraphemeOffset o 1 (offsetOfLine buffer.text (lineOfOffset buffer.text o))
        | CursorMode.Visual _ e _ => min (offsetLineEnd buffer.text e false) e
        | CursorMode.Normal o => o
      (⟨CursorMode.Normal offset, none⟩, buffer, [])
  | EditCommand.InsertMode =>
    ({ cursor with mode := CursorMode.Insert (Selection.caret cursor.offset) }, buffer, [])
  | EditCommand.ToggleVisualMode =>
    (Editor.toggleVisual cursor VisualMode.Normal modal, buffer, [])
  | EditCommand.ToggleLinewiseVisualMode =>
    (Editor.toggleVisual cursor VisualMode.Linewise modal, buffer, [])
  | EditCommand.ToggleBlockwiseVisualMode =>
    (Editor.toggleVisual cursor VisualMode.Blockwise modal, buffer, [])

/-- Specification-side description of moving one region's lines up (spec
section 4.3, `MoveLineUp`): delete the combined two-line span and reinsert
with the previous line moved below the region's full line span, shifting the
region up by the previous line's length.  Stated directly as a text
rearrangement, to be compared with the implementation's edit batches. -/
def moveRegionUpSpec (t : Text) (r : SelRegion) : Text × SelRegion × Nat :=
  let l := lineOfOffset t r.min
  if l = 0 then (t, r, 0)
  else
    let p := offsetOfLine t (l - 1)
    let s := offsetOfLine t l
    let e := offsetOfLine t (lineOfOffset t r.max + 1)
    let prevLen := s - p
    (t.take p ++ slice t s e ++ slice t p s ++ t.drop e,
     ⟨r.start - prevLen, r.stop - prevLen, r.horiz⟩, 1)

/-- Specification-side fold of `moveRegionUpSpec` over the regions in stored
order; the third component counts the edits applied. -/
def moveLinesUpSpec : Text → List SelRegion → Text × List SelRegion × Nat
  | t, [] => (t, [], 0)
  | t, r :: rest =>
    let step := moveRegionUpSpec t r
    let recur := moveLinesUpSpec step.1 rest
    (recur.1, step.2.1 :: recur.2.1, step.2.2 + recur.2.2)

theorem transform_nil (o : Nat) (after : Bool) : Delta.transform [] o after = o := by
  simp [Delta.transform, transformAux]

theorem transform_insert_self (p : Nat) (xs : Text) :
    Delta.transform [⟨p, p, xs⟩] p true = p + xs.length := by
  simp [Delta.transform, transformAux]
  omega

theorem transform_insert_self_before (p : Nat) (xs : Text) :
    Delta.transform [⟨p, p, xs⟩] p false = p := by
  simp [Delta.transform, transformAux]

theorem length_take_eq (t : Text) (p : Nat) (hp : p ≤ t.length) :
    (t.take p).length = p := by
  simp only [List.length_take]
  exact Nat.min_eq_left hp

theorem take_append_insert (t : Text) (p : Nat) (c : Char) (xs : Text) (hp : p ≤ t.length) :
    (t.take p ++ c :: xs).take (p + 1) = t.take p ++ [c] := by
  rw [List.take_append_eq_append_take, length_take_eq t p hp, List.take_take]
  have h2 : p + 1 - p = 1 := by omega
  rw [Nat.min_eq_right (Nat.le_succ p), h2]
  rfl

theorem drop_append_insert (t : Text) (p : Nat) (c : Char) (xs : Text) (hp : p ≤ t.length) :
    (t.take p ++ c :: xs).drop (p + 1) = xs := by
  rw [List.drop_append_eq_append_drop, length_take_eq t p hp,
    List.drop_eq_nil_of_le (by rw [length_take_eq t p hp]; omega)]
  have h2 : p + 1 - p = 1 := by omega
  rw [h2]
  rfl

/-- Claim C3: `breaks_undo_group(e, previous)` returns true exactly when `e`
is `Other` or differs from `previous`; two consecutive `InsertChars` never
start a new undo group, and `InsertChars` followed by `Delete` always does. -/
theorem breaksUndoGroup_iff :
    (∀ e p : EditType, EditType.breaksUndoGroup e p = decide (e = EditType.Other ∨ e ≠ p)) ∧
    EditType.breaksUndoGroup EditType.InsertChars EditType.InsertChars = false ∧
    EditType.breaksUndoGroup EditType.Delete EditType.InsertChars = true := by
  refine ⟨fun e p => ?_, rfl, rfl⟩
  cases e <;> cases p <;> decide

theorem insertRegionStep_skip (t : Text) (syn : Option Syn) (c : Char) (idx : Nat)
    (r : SelRegion) (hdir : matchingPairDirection c = some false)
    (hchar : t[r.stop]? = some c) :
    insertRegionStep t syn c idx r =
      ([], [], SelRegion.caret (nextGraphemeOffset r.stop 1 t.length)) := by
  simp [insertRegionStep, hdir, hchar]

theorem insert_single_region_skip (t : Text) (log : List (Delta × EditType))
    (s e : Nat) (h horiz : Option Nat) (syn : Option Syn) (c : Char)
    (hdir : matchingPairDirection c = some false)
    (hchar : t[e]? = some c) :
    Editor.insert ⟨CursorMode.Insert ⟨[⟨s, e, h⟩], 0⟩, horiz⟩ ⟨t, log⟩ [c] syn =
      (⟨CursorMode.Insert (Selection.caret (nextGraphemeOffset e 1 t.length)), horiz⟩,
       ⟨t, log ++ [([], EditType.InsertChars), ([], EditType.InsertChars)]⟩) := by
  have hstep := insertRegionStep_skip t syn c 0 ⟨s, e, h⟩ hdir hchar
  simp [Editor.insert, enumIdx, hstep, Buffer.edit, joinAll, Selection.applyDelta,
    transform_nil, sortRegionsByStart, insertRegionByStart, adjustRegions,
    applyElems, sortByStart, Selection.caret, SelRegion.caret]

/-- Claim C5: a caret sitting immediately before a character equal to the
typed single closer contributes no edit at all (both logged batches are
empty), leaves the buffer content unchanged, and only advances the caret by
one grapheme; the two-caret example from the skip-over test behaves the
same. -/
theorem insert_closer_skip_noop (t : Text) (log : List (Delta × EditType))
    (p idx : Nat) (horiz : Option Nat) (syn : Option Syn) (c : Char)
    (hdir : matchingPairDirection c = some false)
    (hchar : t[p]? = some c) :
    insertRegionStep t syn c idx (SelRegion.caret p) =
      ([], [], SelRegion.caret (nextGraphemeOffset p 1 t.length)) ∧
    Editor.insert ⟨CursorMode.Insert (Selection.caret p), horiz⟩ ⟨t, log⟩ [c] syn =
      (⟨CursorMode.Insert (Selection.caret (nextGraphemeOffset p 1 t.length)), horiz⟩,
       ⟨t, log ++ [([], EditType.InsertChars), ([], EditType.InsertChars)]⟩) ∧
    (Editor.insert
        ⟨CursorMode.Insert ⟨[SelRegion.caret 2, SelRegion.caret 9], 0⟩, none⟩
        ⟨"a\x7b\x7d bc\ne\x7b\x7d fg\n".toList, []⟩ ['}'] none).2.text =
      "a\x7b\x7d bc\ne\x7b\x7d fg\n".toList := by
  refine ⟨insertRegionStep_skip t syn c idx (SelRegion.caret p) hdir hchar, ?_, by decide⟩
  exact insert_single_region_skip t log p p none horiz syn c hdir hchar

theorem insert_closer_skip_noop_witness :
    (Editor.insert ⟨CursorMode.Insert (Selection.caret 1), none⟩
        ⟨['{', '}'], []⟩ ['}'] none).2.text = ['{', '}'] ∧
    (Editor.insert ⟨CursorMode.Insert (Selection.caret 1), none⟩
        ⟨['{', '}'], []⟩ ['}'] none).1.mode =
      CursorMode.Insert (Selection.caret 2) := by
  have h := insert_closer_skip_noop ['{', '}'] [] 1 0 none none '}'
    (by decide) (by decide)
  refine ⟨by rw [h.2.1], by rw [h.2.1]; decide⟩

/-- Claim C10: in the skip branch a non-caret range region is also replaced
by a plain caret one grapheme past its end offset: the start bound is
discarded and the horizontal hint is cleared. -/
theorem insert_closer_skip_collapses_range (t : Text) (log : List (Delta × EditType))
    (s e idx : Nat) (h horiz : Option Nat) (syn : Option Syn) (c : Char)
    (hdir : matchingPairDirection c = some false)
    (hchar : t[e]? = some c) :
    insertRegionStep t syn c idx ⟨s, e, h⟩ =
      ([], [], ⟨nextGraphemeOffset e 1 t.length, nextGraphemeOffset e 1 t.length, none⟩) ∧
    Editor.insert ⟨CursorMode.Insert ⟨[⟨s, e, h⟩], 0⟩, horiz⟩ ⟨t, log⟩ [c] syn =
      (⟨CursorMode.Insert (Selection.caret (nextGraphemeOffset e 1 t.length)), horiz⟩,
       ⟨t, log ++ [([], EditType.InsertChars), ([], EditType.InsertChars)]⟩) := by
  exact ⟨insertRegionStep_skip t syn c idx ⟨s, e, h⟩ hdir hchar,
    insert_single_region_skip t log s e h horiz syn c hdir hchar⟩

theorem insert_closer_skip_collapses_range_witness :
    (Editor.insert ⟨CursorMode.Insert ⟨[⟨0, 1, some 7⟩], 0⟩, some 3⟩
        ⟨"a\x7d bc".toList, []⟩ ['}'] none).1.mode =
      CursorMode.Insert (Selection.caret 2) := by
  have h := insert_closer_skip_collapses_range "a\x7d bc".toList [] 0 1 0
    (some 7) (some 3) none '}' (by decide) (by decide)
  rw [h.2]
  decide

/-- Claim C6: inserting a text that is not exactly one character applies it
verbatim as a single `InsertChars` batch and remaps the selection with
drift after; no pairing logic runs even when the characters belong to the
pair table (the conjuncts evaluate `"(("` at a single caret and `"xy"` at
two carets). -/
theorem insert_multichar_verbatim (t : Text) (log : List (Delta × EditType))
    (p : Nat) (horiz : Option Nat) (syn : Option Syn) (s : Text)
    (hlen : s.length ≠ 1) :
    Editor.insert ⟨CursorMode.Insert (Selection.caret p), horiz⟩ ⟨t, log⟩ s syn =
      (⟨CursorMode.Insert (Selection.caret (p + s.length)), horiz⟩,
       ⟨t.take p ++ s ++ t.drop p, log ++ [([⟨p, p, s⟩], EditType.InsertChars)]⟩) ∧
    (Editor.insert ⟨CursorMode.Insert (Selection.caret 1), none⟩
        ⟨['a'], []⟩ ['(', '('] none).2.text = ['a', '(', '('] ∧
    (Editor.insert
        ⟨CursorMode.Insert ⟨[SelRegion.caret 1, SelRegion.caret 5], 0⟩, none⟩
        ⟨"abc\nefg\n".toList, []⟩ ['x', 'y'] none) =
      (⟨CursorMode.Insert ⟨[SelRegion.caret 3, SelRegion.caret 9], 0⟩, none⟩,
       ⟨"axybc\nexyfg\n".toList,
        [([⟨1, 1, ['x', 'y']⟩, ⟨5, 5, ['x', 'y']⟩], EditType.InsertChars)]⟩) := by
  refine ⟨?_, by decide, by decide⟩
  match s, hlen with
  | [], _ =>
    simp [Editor.insert, Buffer.edit, joinAll, sortByStart, insertByStart, applyElems,
      applyOne, Selection.applyDelta, Selection.caret, SelRegion.caret, SelRegion.min,
      SelRegion.max, transform_insert_self]
  | c :: d :: rest, _ =>
    simp [Editor.insert, Buffer.edit, joinAll, sortByStart, insertByStart, applyElems,
      applyOne, Selection.applyDelta, Selection.caret, SelRegion.caret, SelRegion.min,
      SelRegion.max, transform_insert_self]

theorem insert_multichar_verbatim_witness :
    (Editor.insert ⟨CursorMode.Insert (Selection.caret 1), none⟩
        ⟨"ab".toList, []⟩ "xy".toList none) =
      (⟨CursorMode.Insert (Selection.caret 3), none⟩,
       ⟨"axyb".toList, [([⟨1, 1, "xy".toList⟩], EditType.InsertChars)]⟩) := by
  have h := (insert_multichar_verbatim "ab".toList [] 1 none none "xy".toList
    (by decide)).1
  rw [h]
  decide

/-- Claim C7: with modal editing disabled, `NormalMode` on an Insert cursor
collapses the selection without touching the buffer or returning deltas:
more than one region collapses to the most recently inserted region kept as
a range (exactly one region remains); exactly one non-caret region collapses
to a caret at its end; a single caret region is a no-op. -/
theorem normalMode_nonmodal_collapse (t : Text) (log : List (Delta × EditType))
    (sel : Selection) (horiz : Option Nat) (syn : Option Syn) :
    (∀ r, sel.regions.length > 1 → sel.lastInsertedRegion = some r →
      Editor.doEdit ⟨CursorMode.Insert sel, horiz⟩ ⟨t, log⟩ EditCommand.NormalMode syn false =
        (⟨CursorMode.Insert (Selection.region r.start r.stop), horiz⟩, ⟨t, log⟩, []) ∧
      (Selection.region r.start r.stop).regions.length = 1) ∧
    (∀ r, sel.regions = [r] → r.isCaret = false →
      Editor.doEdit ⟨CursorMode.Insert sel, horiz⟩ ⟨t, log⟩ EditCommand.NormalMode syn false =
        (⟨CursorMode.Insert (Selection.caret r.stop), horiz⟩, ⟨t, log⟩, [])) ∧
    (∀ r, sel.regions = [r] → r.isCaret = true →
      Editor.doEdit ⟨CursorMode.Insert sel, horiz⟩ ⟨t, log⟩ EditCommand.NormalMode syn false =
        (⟨CursorMode.Insert sel, horiz⟩, ⟨t, log⟩, [])) := by
  refine ⟨fun r hlen hlast => ?_, fun r hreg hcaret => ?_, fun r hreg hcaret => ?_⟩
  · constructor
    · simp [Editor.doEdit, hlen, hlast]
    · simp [Selection.region]
  · have hlen : ¬ sel.regions.length > 1 := by rw [hreg]; simp
    simp [Editor.doEdit, hreg, hlen, hcaret]
  · have hlen : ¬ sel.regions.length > 1 := by rw [hreg]; simp
    simp [Editor.doEdit, hreg, hlen, hcaret]

theorem normalMode_nonmodal_collapse_witness :
    (Editor.doEdit
        ⟨CursorMode.Insert ⟨[⟨1, 1, none⟩, ⟨4, 6, none⟩], 1⟩, none⟩
        ⟨"abcdefg".toList, []⟩ EditCommand.NormalMode none false) =
      (⟨CursorMode.Insert (Selection.region 4 6), none⟩, ⟨"abcdefg".toList, []⟩, []) ∧
    (Editor.doEdit ⟨CursorMode.Insert ⟨[⟨4, 6, none⟩], 0⟩, none⟩
        ⟨"abcdefg".toList, []⟩ EditCommand.NormalMode none false) =
      (⟨CursorMode.Insert (Selection.caret 6), none⟩, ⟨"abcdefg".toList, []⟩, []) := by
  constructor
  · have h := (normalMode_nonmodal_collapse "abcdefg".toList []
      ⟨[⟨1, 1, none⟩, ⟨4, 6, none⟩], 1⟩ none none).1 ⟨4, 6, none⟩
      (by decide) (by decide)
    exact h.1
  · exact (normalMode_nonmodal_collapse "abcdefg".toList [] ⟨[⟨4, 6, none⟩], 0⟩
      none none).2.1 ⟨4, 6, none⟩ (by decide) (by decide)

/-- Claim C1, counterexample: a line-wise-captured paste buffer (`X`) pasted
while the cursor is in Visual mode with Block-wise sub-kind.  The claim says
a Line-wise capture is inserted unchanged regardless of the cursor's Visual
sub-kind, so the buffer should become `Xb\ncd\n`; the code decides the
prefix on the cursor's sub-kind and produces `\nXb\ncd\n`. -/
theorem paste_visual_content_counterexample :
    (Editor.doPaste ⟨CursorMode.Visual 0 0 VisualMode.Blockwise, none⟩
        ⟨"ab\ncd\n".toList, []⟩ ⟨['X'], VisualMode.Linewise⟩).2.1.text =
      '\n' :: 'X' :: "b\ncd\n".toList ∧
    ('\n' :: 'X' :: "b\ncd\n".toList : Text) ≠ 'X' :: "b\ncd\n".toList := by
  constructor
  · decide
  · decide

/-- Claim C1 (amended): for a line-wise or block-wise paste while the cursor
is in Visual mode, the inserted content is the paste buffer's content
prefixed by a linebreak unless the cursor's current Visual sub-kind is
Line-wise, regardless of the paste buffer's recorded capture kind. -/
theorem paste_visual_content_amended (t : Text) (log : List (Delta × EditType))
    (vs ve : Nat) (vm : VisualMode) (horiz : Option Nat) (content : Text)
    (dmode : VisualMode)
    (hd : dmode = VisualMode.Linewise ∨ dmode = VisualMode.Blockwise)
    (r : SelRegion)
    (hr : (Cursor.editSelection ⟨CursorMode.Visual vs ve vm, horiz⟩ ⟨t, log⟩).regions = [r]) :
    (Editor.doPaste ⟨CursorMode.Visual vs ve vm, horiz⟩ ⟨t, log⟩
        ⟨content, dmode⟩).2.1.text =
      t.take r.min ++
        (if vm = VisualMode.Linewise then content else '\n' :: content) ++
        t.drop r.max := by
  rcases hd with hd | hd <;> subst hd <;>
    simp [Editor.doPaste, Buffer.edit, hr, joinAll, sortByStart, insertByStart,
      applyElems, applyOne]

theorem paste_visual_content_amended_witness :
    (Editor.doPaste ⟨CursorMode.Visual 0 0 VisualMode.Linewise, none⟩
        ⟨"ab\ncd\n".toList, []⟩ ⟨['X'], VisualMode.Blockwise⟩).2.1.text =
      'X' :: "cd\n".toList := by
  have h := paste_visual_content_amended "ab\ncd\n".toList [] 0 0
    VisualMode.Linewise none ['X'] VisualMode.Blockwise (Or.inr rfl)
    ⟨0, 3, none⟩ (by decide)
  rw [h]
  decide

/-- Claim C2: a character-wise paste with `after` false — the cursor is not
in Insert mode and the content contains a linebreak — leaves the cursor
Normal at one grapheme before the remapped target selection's minimum
offset. -/
theorem paste_charwise_not_after (t : Text) (log : List (Delta × EditType))
    (cmode : CursorMode) (horiz : Option Nat) (content : Text)
    (hni : Cursor.isInsert ⟨cmode, horiz⟩ = false)
    (hnl : content.contains '\n' = true) :
    (Editor.doPaste ⟨cmode, horiz⟩ ⟨t, log⟩ ⟨content, VisualMode.Normal⟩).1.mode =
      CursorMode.Normal (prevGraphemeOffset
        ((charPasteTarget ⟨cmode, horiz⟩ ⟨t, log⟩).applyDelta
          ((Buffer.edit ⟨t, log⟩
              [(charPasteTarget ⟨cmode, horiz⟩ ⟨t, log⟩, content)]
              EditType.InsertChars).2) false).minOffset 1 0) := by
  have hnl2 : '\n' ∈ content := by simpa using hnl
  cases cmode with
  | Insert sel => simp [Cursor.isInsert] at hni
  | Normal o =>
    simp [Editor.doPaste, Cursor.isInsert, Cursor.updateSelection, hnl2]
  | Visual s e vm =>
    simp [Editor.doPaste, Cursor.isInsert, Cursor.updateSelection, hnl2]

theorem paste_charwise_not_after_witness :
    (Editor.doPaste ⟨CursorMode.Normal 0, none⟩ ⟨"ab".toList, []⟩
        ⟨"x\ny".toList, VisualMode.Normal⟩).1.mode = CursorMode.Normal 0 := by
  have h := paste_charwise_not_after "ab".toList [] (CursorMode.Normal 0) none
    "x\ny".toList (by decide) (by decide)
  rw [h]
  decide

/-- An offset that is 0 or sits right after a line break is a line start:
`offsetOfLine` of its line gives the offset back. -/
theorem offsetOfLine_lineOfOffset_eq (t : Text) :
    ∀ p : Nat, p ≤ t.length → (p = 0 ∨ t[p - 1]? = some '\n') →
      offsetOfLine t (lineOfOffset t p) = p := by
  induction t with
  | nil =>
    intro p hp _
    have hp0 : p = 0 := by simpa using hp
    subst hp0
    simp [lineOfOffset, offsetOfLine]
  | cons ch rest ih =>
    intro p hp hstart
    cases p with
    | zero => simp [lineOfOffset, offsetOfLine]
    | succ q =>
      have hget : (ch :: rest)[q]? = some '\n' := by
        rcases hstart with h | h
        · omega
        · simpa using h
      have hq : q ≤ rest.length := by simpa using hp
      have hih : q = 0 ∨ offsetOfLine rest (lineOfOffset rest q) = q := by
        cases q with
        | zero => exact Or.inl rfl
        | succ q2 =>
          refine Or.inr (ih (q2 + 1) hq (Or.inr ?_))
          simpa using hget
      by_cases hch : ch = '\n'
      · subst hch
        have hcount : lineOfOffset ('\n' :: rest) (q + 1) = lineOfOffset rest q + 1 := by
          simp [lineOfOffset, List.take_succ_cons, List.count_cons]
        rw [hcount]
        have hoff : offsetOfLine ('\n' :: rest) (lineOfOffset rest q + 1) =
            1 + offsetOfLine rest (lineOfOffset rest q) := by
          simp [offsetOfLine]
        rw [hoff]
        cases hih with
        | inl h0 =>
          subst h0
          simp [lineOfOffset, offsetOfLine]
        | inr hr => omega
      · have hq0 : q ≠ 0 := by
          intro h0
          subst h0
          simp at hget
          exact hch hget
        have hcount : lineOfOffset (ch :: rest) (q + 1) = lineOfOffset rest q := by
          simp [lineOfOffset, List.take_succ_cons, List.count_cons, hch]
        rw [hcount]
        obtain ⟨q2, rfl⟩ : ∃ q2, q = q2 + 1 := ⟨q - 1, by omega⟩
        have hmem : '\n' ∈ rest.take (q2 + 1) := by
          apply List.getElem?_mem (n := q2)
          rw [List.getElem?_take]
          simp only [Nat.lt_succ_self, if_true]
          simpa using hget
        have hpos : 0 < lineOfOffset rest (q2 + 1) := by
          rw [lineOfOffset]
          exact List.count_pos_iff.mpr hmem
        obtain ⟨m, hm⟩ : ∃ m, lineOfOffset rest (q2 + 1) = m + 1 :=
          ⟨lineOfOffset rest (q2 + 1) - 1, by omega⟩
        rw [hm]
        have hoff : offsetOfLine (ch :: rest) (m + 1) =
            1 + offsetOfLine rest (m + 1) := by
          simp only [offsetOfLine, if_neg hch]
        rw [hoff, ← hm]
        cases hih with
        | inl h0 => omega
        | inr hr => omega

/-- Claim C9, counterexample: a line-wise paste of `xyz\n` from Normal mode
on the buffer `abc` (no trailing line break, cursor on the last line).  The
inserted block starts at offset 3 and its first line's first non-blank
character is `x` at offset 3, but the cursor lands at offset 0, the first
non-blank of the old merged line. -/
theorem paste_linewise_normal_counterexample :
    (Editor.doPaste ⟨CursorMode.Normal 0, none⟩ ⟨"abc".toList, []⟩
        ⟨"xyz\n".toList, VisualMode.Linewise⟩).2.1.text = "abcxyz\n".toList ∧
    (Editor.doPaste ⟨CursorMode.Normal 0, none⟩ ⟨"abc".toList, []⟩
        ⟨"xyz\n".toList, VisualMode.Linewise⟩).1.mode = CursorMode.Normal 0 ∧
    CursorMode.Normal 0 ≠ CursorMode.Normal 3 := by
  refine ⟨by decide, by decide, by decide⟩

/-- Claim C9 (amended): a line-wise paste from Normal mode targets a caret
at the start of the line following the current line, remaps it with
drift before, and lands the cursor Normal at the first non-blank character
of the line containing the insertion point; when the insertion point is a
line start (the current line is terminated by a line break, or the cursor
is at the top of an empty text) that line is the inserted block's first
line. -/
theorem paste_linewise_normal_mode (t : Text) (log : List (Delta × EditType))
    (o : Nat) (horiz : Option Nat) (content : Text) :
    (Editor.doPaste ⟨CursorMode.Normal o, horiz⟩ ⟨t, log⟩
        ⟨content, VisualMode.Linewise⟩ =
      (⟨CursorMode.Normal (firstNonBlankCharacterOnLine
          (t.take (offsetOfLine t (lineOfOffset t o + 1)) ++ content ++
            t.drop (offsetOfLine t (lineOfOffset t o + 1)))
          (lineOfOffset
            (t.take (offsetOfLine t (lineOfOffset t o + 1)) ++ content ++
              t.drop (offsetOfLine t (lineOfOffset t o + 1)))
            (offsetOfLine t (lineOfOffset t o + 1)))), horiz⟩,
       ⟨t.take (offsetOfLine t (lineOfOffset t o + 1)) ++ content ++
          t.drop (offsetOfLine t (lineOfOffset t o + 1)),
        log ++ [([⟨offsetOfLine t (lineOfOffset t o + 1),
                   offsetOfLine t (lineOfOffset t o + 1), content⟩],
                 EditType.InsertChars)]⟩,
       [[⟨offsetOfLine t (lineOfOffset t o + 1),
          offsetOfLine t (lineOfOffset t o + 1), content⟩]])) ∧
    ((offsetOfLine t (lineOfOffset t o + 1) = 0 ∨
        t[offsetOfLine t (lineOfOffset t o + 1) - 1]? = some '\n') →
      offsetOfLine
        (t.take (offsetOfLine t (lineOfOffset t o + 1)) ++ content ++
          t.drop (offsetOfLine t (lineOfOffset t o + 1)))
        (lineOfOffset
          (t.take (offsetOfLine t (lineOfOffset t o + 1)) ++ content ++
            t.drop (offsetOfLine t (lineOfOffset t o + 1)))
          (offsetOfLine t (lineOfOffset t o + 1))) =
      offsetOfLine t (lineOfOffset t o + 1)) := by
  constructor
  · simp [Editor.doPaste, Buffer.edit, joinAll, sortByStart, insertByStart,
      applyElems, applyOne, Selection.applyDelta, Selection.caret, SelRegion.caret,
      SelRegion.min, SelRegion.max, Selection.minOffset, transform_insert_self_before,
      Cursor.isInsert, Cursor.isVisual]
  · intro hstart
    set p := offsetOfLine t (lineOfOffset t o + 1) with hpdef
    have hple : p ≤ t.length := offsetOfLine_le_length t _
    apply offsetOfLine_lineOfOffset_eq
    · simp only [List.length_append, List.length_take, List.length_drop]
      rw [Nat.min_eq_left hple]
      omega
    · by_cases hp0 : p = 0
      · exact Or.inl hp0
      · have h : t[p - 1]? = some '\n' := by
          rcases hstart with h | h
          · exact absurd h hp0
          · exact h
        refine Or.inr ?_
        have hlt : p - 1 < (t.take p).length := by
          rw [List.length_take, Nat.min_eq_left hple]
          omega
        have hlt1 : p - 1 < (t.take p ++ content).length := by
          rw [List.length_append]
          omega
        rw [List.getElem?_append, if_pos hlt1, List.getElem?_append, if_pos hlt,
          List.getElem?_take, if_pos (by omega)]
        exact h

theorem paste_linewise_normal_mode_witness :
    (Editor.doPaste ⟨CursorMode.Normal 0, none⟩ ⟨"ab\ncd\n".toList, []⟩
        ⟨"  xy\n".toList, VisualMode.Linewise⟩).1.mode = CursorMode.Normal 5 ∧
    offsetOfLine
      ("ab\ncd\n".toList.take 3 ++ "  xy\n".toList ++ "ab\ncd\n".toList.drop 3)
      (lineOfOffset
        ("ab\ncd\n".toList.take 3 ++ "  xy\n".toList ++ "ab\ncd\n".toList.drop 3) 3) = 3 := by
  have h := paste_linewise_normal_mode "ab\ncd\n".toList [] 0 none "  xy\n".toList
  constructor
  · rw [h.1]
    decide
  · have h2 := h.2 (by decide)
    simpa using h2

theorem insertRegionStep_opener (t : Text) (syn : Option Syn) (c : Char) (idx : Nat)
    (r : SelRegion) (hdir : matchingPairDirection c = some true)
    (hsafe : safeForAutoClose t r.stop = true) :
    insertRegionStep t syn c idx r =
      ([(Selection.region r.start r.stop, [c])],
       [(idx, (matchingChar c).getD c)], r) := by
  simp [insertRegionStep, hdir, hsafe]

theorem insert_opener_single_caret (t : Text) (log : List (Delta × EditType))
    (p : Nat) (horiz : Option Nat) (syn : Option Syn) (c : Char)
    (hdir : matchingPairDirection c = some true)
    (hsafe : safeForAutoClose t p = true)
    (hp : p ≤ t.length) :
    Editor.insert ⟨CursorMode.Insert (Selection.caret p), horiz⟩ ⟨t, log⟩ [c] syn =
      (⟨CursorMode.Insert (Selection.caret (p + 1)), horiz⟩,
       ⟨t.take p ++ c :: (matchingChar c).getD c :: t.drop p,
        log ++ [([⟨p, p, [c]⟩], EditType.InsertChars),
                ([⟨p + 1, p + 1, [(matchingChar c).getD c]⟩], EditType.InsertChars)]⟩) := by
  have hstep : insertRegionStep t syn c 0 ⟨p, p, none⟩ =
      ([(Selection.region p p, [c])], [(0, (matchingChar c).getD c)], ⟨p, p, none⟩) := by
    simpa [SelRegion.caret] using
      insertRegionStep_opener t syn c 0 (SelRegion.caret p) hdir hsafe
  simp [Editor.insert, enumIdx, hstep, Buffer.edit, joinAll, sortByStart, insertByStart,
    applyElems, applyOne, Selection.applyDelta, Selection.caret, SelRegion.caret,
    Selection.region, SelRegion.min, SelRegion.max, transform_insert_self,
    Selection.lastInsertedRegion, sortRegionsByStart, insertRegionByStart, adjustRegions,
    take_append_insert t p c (t.drop p) hp, drop_append_insert t p c (t.drop p) hp]

/-- Claim C4, counterexample: three carets at offsets 1, 3, 5 of `x x x`,
all in safe auto-close contexts, typing `{`.  Every pair is inserted into
the buffer, but the final adjustment pass compares late-edit insertion
points against already-adjusted starts, so the third caret ends at offset 9
(before its opener) instead of offset 10 (between its pair): not every caret
lands between the inserted pair. -/
theorem insert_opener_counterexample :
    (Editor.insert
        ⟨CursorMode.Insert
          ⟨[SelRegion.caret 1, SelRegion.caret 3, SelRegion.caret 5], 0⟩, none⟩
        ⟨"x x x".toList, []⟩ ['{'] none).2.text = "x{} x{} x{}".toList ∧
    (Editor.insert
        ⟨CursorMode.Insert
          ⟨[SelRegion.caret 1, SelRegion.caret 3, SelRegion.caret 5], 0⟩, none⟩
        ⟨"x x x".toList, []⟩ ['{'] none).1.mode =
      CursorMode.Insert
        ⟨[SelRegion.caret 2, SelRegion.caret 6, SelRegion.caret 9], 0⟩ ∧
    CursorMode.Insert
        ⟨[SelRegion.caret 2, SelRegion.caret 6, SelRegion.caret 9], 0⟩ ≠
      CursorMode.Insert
        ⟨[SelRegion.caret 2, SelRegion.caret 6, SelRegion.caret 10], 0⟩ := by
  refine ⟨by decide, by decide, by decide⟩

/-- Claim C4 (amended): typing a single opener whose following character is
a linebreak, whitespace, punctuation or end-of-text records the closer as a
late edit (never in the main batch) and inserts opener and closer with the
caret landing between them, for a single caret and for the two-caret example
`a bc\ne fg\n` + `{` = `a{} bc\ne{} fg\n`; with three or more such carets
the buffer still receives every pair but the adjustment pass can leave later
carets short of the between position. -/
theorem insert_opener_autocloses (t : Text) (log : List (Delta × EditType))
    (p : Nat) (horiz : Option Nat) (syn : Option Syn) (c : Char)
    (hdir : matchingPairDirection c = some true)
    (hsafe : safeForAutoClose t p = true)
    (hp : p ≤ t.length) :
    insertRegionStep t syn c 0 (SelRegion.caret p) =
      ([(Selection.region p p, [c])], [(0, (matchingChar c).getD c)], SelRegion.caret p) ∧
    Editor.insert ⟨CursorMode.Insert (Selection.caret p), horiz⟩ ⟨t, log⟩ [c] syn =
      (⟨CursorMode.Insert (Selection.caret (p + 1)), horiz⟩,
       ⟨t.take p ++ c :: (matchingChar c).getD c :: t.drop p,
        log ++ [([⟨p, p, [c]⟩], EditType.InsertChars),
                ([⟨p + 1, p + 1, [(matchingChar c).getD c]⟩], EditType.InsertChars)]⟩) ∧
    (Editor.insert
        ⟨CursorMode.Insert ⟨[SelRegion.caret 1, SelRegion.caret 6], 0⟩, none⟩
        ⟨"a bc\ne fg\n".toList, []⟩ ['{'] none).2.text = "a\x7b\x7d bc\ne\x7b\x7d fg\n".toList ∧
    (Editor.insert
        ⟨CursorMode.Insert ⟨[SelRegion.caret 1, SelRegion.caret 6], 0⟩, none⟩
        ⟨"a bc\ne fg\n".toList, []⟩ ['{'] none).1.mode =
      CursorMode.Insert ⟨[SelRegion.caret 2, SelRegion.caret 9], 0⟩ := by
  refine ⟨?_, insert_opener_single_caret t log p horiz syn c hdir hsafe hp,
    by decide, by decide⟩
  have h := insertRegionStep_opener t syn c 0 (SelRegion.caret p) hdir hsafe
  simpa [SelRegion.caret] using h

theorem insert_opener_autocloses_witness :
    (Editor.insert ⟨CursorMode.Insert (Selection.caret 1), none⟩
        ⟨"a b".toList, []⟩ ['{'] none) =
      (⟨CursorMode.Insert (Selection.caret 2), none⟩,
       ⟨"a{} b".toList,
        [([⟨1, 1, ['{']⟩], EditType.InsertChars),
         ([⟨2, 2, ['}']⟩], EditType.InsertChars)]⟩) := by
  have h := (insert_opener_autocloses "a b".toList [] 1 none none '{'
    (by decide) (by decide) (by decide)).2.1
  rw [h]
  decide

theorem offsetOfLine_mono (t : Text) : ∀ l m, l ≤ m →
    offsetOfLine t l ≤ offsetOfLine t m := by
  induction t with
  | nil => intro l m _; cases l <;> cases m <;> simp [offsetOfLine]
  | cons ch rest ih =>
    intro l m h
    cases l with
    | zero => simp [offsetOfLine]
    | succ l1 =>
      cases m with
      | zero => omega
      | succ m1 =>
        simp only [offsetOfLine]
        split
        · have := ih l1 m1 (by omega)
          omega
        · have := ih (l1 + 1) (m1 + 1) (by omega)
          omega

theorem lineOfOffset_mono (t : Text) (o o2 : Nat) (h : o ≤ o2) :
    lineOfOffset t o ≤ lineOfOffset t o2 := by
  have h2 : o + (o2 - o) = o2 := by omega
  have hsplit : t.take o2 = t.take o ++ (t.drop o).take (o2 - o) := by
    conv_lhs => rw [← h2]
    exact List.take_add t o (o2 - o)
  rw [lineOfOffset, lineOfOffset, hsplit, List.count_append]
  omega

theorem applyTwo_eq (t : Text) (p s e : Nat) (xs : Text)
    (hps : p ≤ s) (hsl : s ≤ t.length) :
    (t.take s ++ t.drop e).take p ++ xs ++ (t.take s ++ t.drop e).drop p =
      t.take p ++ xs ++ slice t p s ++ t.drop e := by
  have hlen : (t.take s).length = s := length_take_eq t s hsl
  have h1 : p - s = 0 := by omega
  rw [List.take_append_eq_append_take, hlen, List.drop_append_eq_append_drop, hlen, h1]
  simp only [List.take_zero, List.append_nil, List.drop_zero]
  rw [List.take_take, Nat.min_eq_left hps, List.drop_take]
  simp [slice, List.append_assoc]

theorem edit_delete_insert (t : Text) (log : List (Delta × EditType)) (s e p : Nat)
    (xs : Text) (ty : EditType) (hps : p ≤ s) (hse : s ≤ e) (hsl : s ≤ t.length) :
    Buffer.edit ⟨t, log⟩ [(Selection.region s e, []), (Selection.caret p, xs)] ty =
      (⟨t.take p ++ xs ++ slice t p s ++ t.drop e,
        log ++ [([⟨p, p, xs⟩, ⟨s, e, ([] : Text)⟩], ty)]⟩,
       [⟨p, p, xs⟩, ⟨s, e, ([] : Text)⟩]) := by
  simp only [Buffer.edit, joinAll, Selection.region, Selection.caret, SelRegion.caret,
    SelRegion.min, SelRegion.max, List.map_cons, List.map_nil, List.append_nil,
    List.nil_append, List.cons_append, sortByStart, insertByStart]
  rw [min_self, max_self, min_eq_left hse, max_eq_right hse, if_neg (by omega : ¬ s < p)]
  simp only [applyElems, applyOne, List.append_nil]
  rw [applyTwo_eq t p s e xs hps hsl]

theorem moveLineUpStep_refines (t : Text) (log : List (Delta × EditType)) (r : SelRegion) :
    (moveLineUpStep ⟨t, log⟩ r).1.text = (moveRegionUpSpec t r).1 ∧
    (moveLineUpStep ⟨t, log⟩ r).2.1 = (moveRegionUpSpec t r).2.1 ∧
    (moveLineUpStep ⟨t, log⟩ r).2.2.length = (moveRegionUpSpec t r).2.2 := by
  by_cases hl : lineOfOffset t r.min = 0
  · simp [moveLineUpStep, moveRegionUpSpec, hl]
  · have hps : offsetOfLine t (lineOfOffset t r.min - 1) ≤ offsetOfLine t (lineOfOffset t r.min) :=
      offsetOfLine_mono t _ _ (by omega)
    have hsl : offsetOfLine t (lineOfOffset t r.min) ≤ t.length := offsetOfLine_le_length t _
    have hrm : r.min ≤ r.max := by
      simp only [SelRegion.min, SelRegion.max]
      omega
    have hse : offsetOfLine t (lineOfOffset t r.min) ≤
        offsetOfLine t (lineOfOffset t r.max + 1) := by
      refine offsetOfLine_mono t _ _ ?_
      have := lineOfOffset_mono t r.min r.max hrm
      omega
    have hprev : (lineContent t (lineOfOffset t r.min - 1)).length =
        offsetOfLine t (lineOfOffset t r.min) - offsetOfLine t (lineOfOffset t r.min - 1) := by
      have hl1 : lineOfOffset t r.min - 1 + 1 = lineOfOffset t r.min := by omega
      simp only [lineContent, hl1, slice, List.length_take, List.length_drop]
      rw [Nat.min_eq_left (by omega)]
    have hedit := edit_delete_insert t log (offsetOfLine t (lineOfOffset t r.min))
      (offsetOfLine t (lineOfOffset t r.max + 1))
      (offsetOfLine t (lineOfOffset t r.min - 1))
      (slice t (offsetOfLine t (lineOfOffset t r.min))
        (offsetOfLine t (lineOfOffset t r.max + 1)))
      EditType.InsertChars hps hse hsl
    simp only [moveLineUpStep, moveRegionUpSpec, if_neg hl]
    rw [hedit, hprev]
    exact ⟨rfl, rfl, rfl⟩

theorem moveLineUpLoop_refines (rs : List SelRegion) : ∀ (t : Text) (log : List (Delta × EditType)),
    (moveLineUpLoop ⟨t, log⟩ rs).2.1.text = (moveLinesUpSpec t rs).1 ∧
    (moveLineUpLoop ⟨t, log⟩ rs).1 = (moveLinesUpSpec t rs).2.1 ∧
    (moveLineUpLoop ⟨t, log⟩ rs).2.2.length = (moveLinesUpSpec t rs).2.2 := by
  induction rs with
  | nil => intro t log; simp [moveLineUpLoop, moveLinesUpSpec]
  | cons r rest ih =>
    intro t log
    rcases hb : moveLineUpStep ⟨t, log⟩ r with ⟨⟨t1, log1⟩, r1, d1⟩
    have hstep := moveLineUpStep_refines t log r
    rw [hb] at hstep
    obtain ⟨h1, h2, h3⟩ := hstep
    replace h1 : t1 = (moveRegionUpSpec t r).1 := h1
    replace h2 : r1 = (moveRegionUpSpec t r).2.1 := h2
    replace h3 : d1.length = (moveRegionUpSpec t r).2.2 := h3
    subst h1
    subst h2
    have ih1 := ih (moveRegionUpSpec t r).1 log1
    simp only [moveLineUpLoop, moveLinesUpSpec, hb]
    refine ⟨ih1.1, ?_, ?_⟩
    · rw [ih1.2.1]
    · simp only [List.length_append, h3, ih1.2.2]

/-- Claim C8: `MoveLineUp` on an Insert selection processes regions in their
stored order against the current text store state (so later regions observe
earlier regions' shifts), swapping each region's full line span with the
previous line and shifting the region up by the previous line's length; this
equals the specification-side fold `moveLinesUpSpec`, whose per-region step
is a direct text rearrangement and contributes one edit exactly when the
region's line has a predecessor. -/
theorem moveLineUp_refines_spec (t : Text) (log : List (Delta × EditType))
    (sel : Selection) (horiz : Option Nat) (syn : Option Syn) (modal : Bool) :
    (Editor.doEdit ⟨CursorMode.Insert sel, horiz⟩ ⟨t, log⟩ EditCommand.MoveLineUp
        syn modal).2.1.text = (moveLinesUpSpec t sel.regions).1 ∧
    (Editor.doEdit ⟨CursorMode.Insert sel, horiz⟩ ⟨t, log⟩ EditCommand.MoveLineUp
        syn modal).1 =
      ⟨CursorMode.Insert ⟨(moveLinesUpSpec t sel.regions).2.1, sel.lastInserted⟩, horiz⟩ ∧
    (Editor.doEdit ⟨CursorMode.Insert sel, horiz⟩ ⟨t, log⟩ EditCommand.MoveLineUp
        syn modal).2.2.length = (moveLinesUpSpec t sel.regions).2.2 := by
  have h := moveLineUpLoop_refines sel.regions t log
  refine ⟨?_, ?_, ?_⟩
  · simpa [Editor.doEdit] using h.1
  · simp only [Editor.doEdit]
    rw [h.2.1]
  · simpa [Editor.doEdit] using h.2.2

end Lapce
